import Mathlib

/-!
Verification of the core of the `tailr` program (src/src/lib.rs): the
count-specification parser `parse_take_value`, the offset resolver
`get_start_index`, the metrics scanner `count_lines_bytes`, the emitters
`print_lines` / `print_bytes`, and the multi-file driver `run`.

Machine integers are modelled as `Int` with explicit two's-complement
wrap-around where the Rust code can overflow (release-mode semantics).
File contents are modelled as their character sequence, one `Char` per byte.
-/

namespace Tailr

/-- The parsed count specification (`TakeValue` in src/src/lib.rs). -/
inductive TakeValue where
  | PlusZero : TakeValue
  | TakeNum : Int → TakeValue
deriving DecidableEq

export TakeValue (PlusZero TakeNum)

/-- The value `i64::MAX`. -/
def i64max : Int := 2 ^ 63 - 1

/-- The value `i64::MIN`. -/
def i64min : Int := -(2 ^ 63)

/-- Two's-complement wrap-around into the `i64` range: the result of an
`i64` operation under Rust release-mode overflow semantics. -/
def wrap64 (x : Int) : Int := (x + 2 ^ 63) % 2 ^ 64 - 2 ^ 63

/-- Reinterpret an `i64` value as a `u64` (`as u64`). -/
def toU64 (x : Int) : Int := x % 2 ^ 64

/-- The operation `i64::abs` with wrapping overflow semantics:
`i64::MIN.abs()` wraps back to `i64::MIN`. -/
def i64abs (n : Int) : Int := wrap64 (if n < 0 then -n else n)

/-- Negation of an `i64` with wrapping overflow semantics. -/
def i64neg (n : Int) : Int := wrap64 (-n)

/-- Shallow embedding of `get_start_index` (src/src/lib.rs, lines 89-119):
maps a take specification and a total count to an optional zero-based
start offset (`Option<u64>`, the `u64` value modelled as a nonnegative `Int`). -/
def get_start_index (take_val : TakeValue) (total : Int) : Option Int :=
  match take_val with
  | PlusZero => if total = 0 then none else some 0
  | TakeNum n =>
    if n = 0 then none
    else if 0 < n then
      if total < n then none else some (toU64 (n - 1))
    else
      if total < i64abs n then some 0
      else some (toU64 (wrap64 (total + n)))

theorem wrap64_eq_self (x : Int) (h1 : i64min ≤ x) (h2 : x ≤ i64max) : wrap64 x = x := by
  unfold wrap64
  unfold i64min at h1
  unfold i64max at h2
  omega

theorem toU64_eq_self (x : Int) (h1 : 0 ≤ x) (h2 : x < 2 ^ 64) : toU64 x = x := by
  unfold toU64
  omega

/-- C4: for a positive `n` in the `i64` range and a nonnegative total in the
`i64` range, `get_start_index (TakeNum n) total` is `none` when `total < n`
and `some (n - 1)` otherwise. -/
theorem resolve_positive (n total : Int) (hn : 0 < n) (hn2 : n ≤ i64max)
    (ht : 0 ≤ total) (ht2 : total ≤ i64max) :
    get_start_index (TakeNum n) total = if total < n then none else some (n - 1) := by
  simp only [get_start_index]
  rw [if_neg hn.ne', if_pos hn]
  by_cases h : total < n
  · rw [if_pos h, if_pos h]
  · rw [if_neg h, if_neg h]
    have hx : toU64 (n - 1) = n - 1 := by
      apply toU64_eq_self
      · omega
      · unfold i64max at hn2; omega
    rw [hx]

/-- Witness for `resolve_positive` at `n = 2`, `total = 10`. -/
theorem resolve_positive_witness :
    get_start_index (TakeNum 2) 10 = some 1 := by
  have h := resolve_positive 2 10 (by norm_num) (by unfold i64max; norm_num)
    (by norm_num) (by unfold i64max; norm_num)
  simpa using h

/-- C5: `get_start_index PlusZero total` is `none` exactly when `total = 0`
and `some 0` otherwise, and `get_start_index (TakeNum 0) total` is always
`none`. -/
theorem resolve_zero (total : Int) :
    get_start_index PlusZero total = (if total = 0 then none else some 0) ∧
    get_start_index (TakeNum 0) total = none := by
  constructor
  · rfl
  · simp [get_start_index]

/-- C1 (failing input): at `TakeNum i64::MIN` the code's `n.abs()` overflows;
with release-mode wrapping semantics the resolver returns
`some (2 ^ 63 + total)` instead of the specified `some 0`. Evaluated at
`total = 0`. -/
theorem resolve_i64min_overflow :
    get_start_index (TakeNum i64min) 0 = some (2 ^ 63) ∧ (2 ^ 63 : Int) ≠ 0 := by
  constructor
  · unfold get_start_index i64min i64abs wrap64 toU64
    norm_num
  · norm_num

deriving instance DecidableEq for Except

/-- The character for a decimal digit value. -/
def digitChar (d : Nat) : Char := Char.ofNat (48 + d)

/-- The value of an ASCII decimal digit character, `none` for any other
character. -/
def digitVal (c : Char) : Option Nat :=
  if 48 ≤ c.toNat ∧ c.toNat ≤ 57 then some (c.toNat - 48) else none

/-- Accumulating left-to-right evaluation of a digit string; `none` as soon
as a non-digit character appears. -/
def parseDigitsAux : List Char → Nat → Option Nat
  | [], acc => some acc
  | c :: cs, acc =>
    match digitVal c with
    | none => none
    | some d => parseDigitsAux cs (10 * acc + d)

/-- A nonempty all-digit string evaluated as a natural number. -/
def parseDigits : List Char → Option Nat
  | [] => none
  | c :: cs => parseDigitsAux (c :: cs) 0

/-- Model of Rust `str::parse::<i64>`: an optional single leading `+` or `-`
sign, then one or more ASCII digits, and the resulting value must lie in
the `i64` range. -/
def parseI64 (s : List Char) : Option Int :=
  match s with
  | [] => none
  | c :: rest =>
    if c = '+' then
      match parseDigits rest with
      | some m => if (m : Int) ≤ i64max then some (m : Int) else none
      | none => none
    else if c = '-' then
      match parseDigits rest with
      | some m => if (m : Int) ≤ 2 ^ 63 then some (-(m : Int)) else none
      | none => none
    else
      match parseDigits s with
      | some m => if (m : Int) ≤ i64max then some (m : Int) else none
      | none => none

/-- Shallow embedding of `parse_take_value` (src/src/lib.rs, lines 17-42).
The text is modelled as its character list; the error message carries the
original text. -/
def parse_take_value (s : List Char) (field_name : String) : Except String TakeValue :=
  let err_msg : String := "illegal " ++ field_name ++ " count -- " ++ s.asString
  let is_starts_with_plus : Bool := s.head? = some '+'
  let is_starts_with_minus : Bool := s.head? = some '-'
  if (!is_starts_with_plus || is_starts_with_minus) = true then
    match parseI64 s with
    | none => Except.error err_msg
    | some val =>
      Except.ok (TakeNum (if is_starts_with_minus = false then i64neg val else val))
  else
    match parseI64 (s.dropWhile (fun c => c = '+')) with
    | none => Except.error err_msg
    | some val =>
      if val = 0 then Except.ok PlusZero
      else Except.ok (TakeNum val)

/-- The helper `parse_lines` from src/src/lib.rs. -/
def parse_lines (s : List Char) : Except String TakeValue :=
  parse_take_value s "line"

/-- The helper `parse_bytes` from src/src/lib.rs. -/
def parse_bytes (s : List Char) : Except String TakeValue :=
  parse_take_value s "byte"

example : parse_take_value ['3'] "byte" = Except.ok (TakeNum (-3)) := by decide
example : parse_take_value ['+', '3'] "byte" = Except.ok (TakeNum 3) := by decide
example : parse_take_value ['-', '3'] "byte" = Except.ok (TakeNum (-3)) := by decide
example : parse_take_value ['0'] "byte" = Except.ok (TakeNum 0) := by decide
example : parse_take_value ['+', '0'] "byte" = Except.ok PlusZero := by decide
example : parse_take_value ['3', '.', '1', '4'] "byte"
    = Except.error "illegal byte count -- 3.14" := by decide
example : parse_take_value ['f', 'o', 'o'] "line"
    = Except.error "illegal line count -- foo" := by decide

/-- Canonical decimal rendering of a natural number, most significant digit
first: the text `"{m}"` of the specification. -/
def natDigits (n : Nat) : List Char :=
  if n < 10 then [digitChar n]
  else natDigits (n / 10) ++ [digitChar (n % 10)]
termination_by n
decreasing_by exact Nat.div_lt_self (by omega) (by omega)

theorem digitVal_digitChar (d : Nat) (h : d < 10) : digitVal (digitChar d) = some d := by
  interval_cases d <;> decide

theorem digitChar_isDigit (d : Nat) (h : d < 10) :
    48 ≤ (digitChar d).toNat ∧ (digitChar d).toNat ≤ 57 := by
  interval_cases d <;> decide

theorem parseDigitsAux_append (xs ys : List Char) (acc : Nat) :
    parseDigitsAux (xs ++ ys) acc =
      match parseDigitsAux xs acc with
      | some a => parseDigitsAux ys a
      | none => none := by
  induction xs generalizing acc with
  | nil => rfl
  | cons c cs ih =>
    simp only [List.cons_append, parseDigitsAux]
    cases digitVal c with
    | none => rfl
    | some d => exact ih _

theorem natDigits_ne_nil (n : Nat) : natDigits n ≠ [] := by
  rw [natDigits]
  by_cases h : n < 10
  · rw [if_pos h]; simp
  · rw [if_neg h]; simp

theorem natDigits_all_digits (n : Nat) :
    ∀ c ∈ natDigits n, 48 ≤ c.toNat ∧ c.toNat ≤ 57 := by
  induction n using Nat.strong_induction_on with
  | _ n ih =>
    rw [natDigits]
    by_cases h : n < 10
    · rw [if_pos h]
      intro c hc
      simp only [List.mem_singleton] at hc
      subst hc
      exact digitChar_isDigit n h
    · rw [if_neg h]
      intro c hc
      rw [List.mem_append] at hc
      cases hc with
      | inl hc => exact ih (n / 10) (Nat.div_lt_self (by omega) (by omega)) c hc
      | inr hc =>
        simp only [List.mem_singleton] at hc
        subst hc
        exact digitChar_isDigit (n % 10) (Nat.mod_lt _ (by omega))

theorem parseDigitsAux_natDigits (n : Nat) :
    ∀ acc, parseDigitsAux (natDigits n) acc
      = some (acc * 10 ^ (natDigits n).length + n) := by
  induction n using Nat.strong_induction_on with
  | _ n ih =>
    intro acc
    rw [natDigits]
    by_cases h : n < 10
    · rw [if_pos h]
      simp only [parseDigitsAux, digitVal_digitChar n h, List.length_singleton]
      rw [pow_one]
      ring_nf
    · rw [if_neg h]
      rw [parseDigitsAux_append]
      rw [ih (n / 10) (Nat.div_lt_self (by omega) (by omega)) acc]
      simp only [parseDigitsAux, digitVal_digitChar (n % 10) (Nat.mod_lt _ (by omega)),
        List.length_append, List.length_singleton]
      congr 1
      rw [pow_add, pow_one]
      have hdm := Nat.div_add_mod n 10
      ring_nf
      omega

theorem parseDigits_natDigits (n : Nat) : parseDigits (natDigits n) = some n := by
  obtain ⟨c, cs, hcs⟩ : ∃ c cs, natDigits n = c :: cs := by
    cases h : natDigits n with
    | nil => exact absurd h (natDigits_ne_nil n)
    | cons c cs => exact ⟨c, cs, rfl⟩
  rw [hcs]
  show parseDigitsAux (c :: cs) 0 = some n
  rw [← hcs, parseDigitsAux_natDigits n 0]
  simp

/-- The leading character of `natDigits n` is a digit, in particular neither
`+` nor `-`. -/
theorem natDigits_head (n : Nat) :
    ∃ c cs, natDigits n = c :: cs ∧ 48 ≤ c.toNat ∧ c.toNat ≤ 57 := by
  cases h : natDigits n with
  | nil => exact absurd h (natDigits_ne_nil n)
  | cons c cs =>
    refine ⟨c, cs, rfl, ?_⟩
    exact natDigits_all_digits n c (h ▸ List.mem_cons_self c cs)

theorem digit_ne_plus (c : Char) (h : 48 ≤ c.toNat) : c ≠ '+' := by
  intro hc
  subst hc
  exact absurd h (by decide)

theorem digit_ne_minus (c : Char) (h : 48 ≤ c.toNat) : c ≠ '-' := by
  intro hc
  subst hc
  exact absurd h (by decide)

theorem parseI64_unsigned (c : Char) (cs : List Char) (m : Nat)
    (h1 : c ≠ '+') (h2 : c ≠ '-') (hp : parseDigits (c :: cs) = some m)
    (hm : (m : Int) ≤ i64max) :
    parseI64 (c :: cs) = some (m : Int) := by
  simp only [parseI64]
  rw [if_neg h1, if_neg h2, hp]
  show (if (m : Int) ≤ i64max then some (m : Int) else none) = some (m : Int)
  rw [if_pos hm]

theorem parseI64_minus (rest : List Char) (m : Nat)
    (hp : parseDigits rest = some m) (hm : (m : Int) ≤ 2 ^ 63) :
    parseI64 ('-' :: rest) = some (-(m : Int)) := by
  simp only [parseI64]
  rw [if_pos trivial, hp]
  show (if (m : Int) ≤ 2 ^ 63 then some (-(m : Int)) else none) = some (-(m : Int))
  rw [if_pos hm]

theorem parseI64_plus (rest : List Char) (m : Nat)
    (hp : parseDigits rest = some m) (hm : (m : Int) ≤ i64max) :
    parseI64 ('+' :: rest) = some (m : Int) := by
  simp only [parseI64]
  rw [if_pos trivial, hp]
  show (if (m : Int) ≤ i64max then some (m : Int) else none) = some (m : Int)
  rw [if_pos hm]

/-- C2 (amended): for every `m` with `m ≤ i64::MAX`, parsing the decimal
text `"{m}"` and the text `"-{m}"` both succeed and both yield
`TakeNum (-m)`. -/
theorem parse_unsigned_and_minus (m : Nat) (f : String) (hm : (m : Int) ≤ i64max) :
    parse_take_value (natDigits m) f = Except.ok (TakeNum (-(m : Int))) ∧
    parse_take_value ('-' :: natDigits m) f = Except.ok (TakeNum (-(m : Int))) := by
  obtain ⟨c, cs, hcs, h48, _h57⟩ := natDigits_head m
  have hplus : c ≠ '+' := digit_ne_plus c h48
  have hminus : c ≠ '-' := digit_ne_minus c h48
  have hpd : parseDigits (c :: cs) = some m := hcs ▸ parseDigits_natDigits m
  have hneg : i64neg (m : Int) = -(m : Int) := by
    unfold i64neg
    apply wrap64_eq_self
    · unfold i64min
      unfold i64max at hm
      omega
    · unfold i64max at hm ⊢
      omega
  constructor
  · rw [hcs]
    simp only [parse_take_value, List.head?]
    rw [parseI64_unsigned c cs m hplus hminus hpd hm]
    simp [hplus, hminus, hneg]
  · rw [hcs]
    simp only [parse_take_value, List.head?]
    rw [parseI64_minus (c :: cs) m hpd (by unfold i64max at hm; omega)]
    simp

/-- Witness for `parse_unsigned_and_minus` at `m = 3`. -/
theorem parse_unsigned_and_minus_witness :
    parse_take_value ['3'] "line" = Except.ok (TakeNum (-3)) ∧
    parse_take_value ['-', '3'] "line" = Except.ok (TakeNum (-3)) := by
  have h := parse_unsigned_and_minus 3 "line" (by unfold i64max; norm_num)
  have h3 : natDigits 3 = ['3'] := by rw [natDigits]; decide
  rw [h3] at h
  exact_mod_cast h

theorem natDigits_two_pow_sixtythree :
    natDigits 9223372036854775808
      = ['9', '2', '2', '3', '3', '7', '2', '0', '3', '6', '8', '5', '4', '7', '7', '5', '8', '0', '8'] := by
  simp [natDigits]
  decide

/-- C2 (counterexample): at `m = 2 ^ 63` the unsigned text `"{m}"` does not
parse (the magnitude is outside the `i64` range), so parsing fails instead
of yielding `TakeNum (-m)`. -/
theorem parse_unsigned_overflow :
    parse_take_value (natDigits 9223372036854775808) "line"
      = Except.error "illegal line count -- 9223372036854775808" ∧
    parse_take_value (natDigits 9223372036854775808) "line"
      ≠ Except.ok (TakeNum (-9223372036854775808)) := by
  rw [natDigits_two_pow_sixtythree]
  constructor <;> decide

/-- C3 (amended): for every `m` with `m ≤ i64::MAX`, parsing the text
`"+{m}"` yields `PlusZero` exactly when `m = 0` and `TakeNum m` otherwise. -/
theorem parse_plus (m : Nat) (f : String) (hm : (m : Int) ≤ i64max) :
    parse_take_value ('+' :: natDigits m) f
      = Except.ok (if m = 0 then PlusZero else TakeNum (m : Int)) := by
  obtain ⟨c, cs, hcs, h48, _h57⟩ := natDigits_head m
  have hplus : c ≠ '+' := digit_ne_plus c h48
  have hminus : c ≠ '-' := digit_ne_minus c h48
  have hpd : parseDigits (c :: cs) = some m := hcs ▸ parseDigits_natDigits m
  have hpi : parseI64 (c :: cs) = some (m : Int) :=
    parseI64_unsigned c cs m hplus hminus hpd hm
  rw [hcs]
  simp only [parse_take_value, List.head?]
  rw [show List.dropWhile (fun x => decide (x = '+')) ('+' :: c :: cs) = c :: cs from by
    simp [List.dropWhile_cons, hplus]]
  rw [hpi]
  by_cases h0 : m = 0 <;> simp [h0]

/-- Witness for `parse_plus` at `m = 0` and `m = 5`. -/
theorem parse_plus_witness :
    parse_take_value ['+', '0'] "line" = Except.ok PlusZero ∧
    parse_take_value ['+', '5'] "line" = Except.ok (TakeNum 5) := by
  have h0 := parse_plus 0 "line" (by unfold i64max; norm_num)
  have h5 := parse_plus 5 "line" (by unfold i64max; norm_num)
  rw [show natDigits 0 = ['0'] from by rw [natDigits]; decide] at h0
  rw [show natDigits 5 = ['5'] from by rw [natDigits]; decide] at h5
  simp at h0 h5
  exact ⟨h0, by exact_mod_cast h5⟩

/-- C3 (counterexample): at `m = 2 ^ 63` the text `"+{m}"` does not parse
(the magnitude is outside the `i64` range), so parsing fails instead of
yielding `TakeNum m`. -/
theorem parse_plus_overflow :
    parse_take_value ('+' :: natDigits 9223372036854775808) "line"
      = Except.error "illegal line count -- +9223372036854775808" ∧
    parse_take_value ('+' :: natDigits 9223372036854775808) "line"
      ≠ Except.ok (TakeNum 9223372036854775808) := by
  rw [natDigits_two_pow_sixtythree]
  constructor <;> decide

/-- C9: every leading `+` is stripped before the remainder is parsed, so for
`1 ≤ m ≤ i64::MAX` the text `"++{m}"` parses to `TakeNum m` and the text
`"+-{m}"` parses to `TakeNum (-m)`; neither is rejected as an illegal count. -/
theorem parse_extra_signs (m : Nat) (f : String) (h1 : 1 ≤ m) (hm : (m : Int) ≤ i64max) :
    parse_take_value ('+' :: '+' :: natDigits m) f = Except.ok (TakeNum (m : Int)) ∧
    parse_take_value ('+' :: '-' :: natDigits m) f = Except.ok (TakeNum (-(m : Int))) := by
  obtain ⟨c, cs, hcs, h48, _h57⟩ := natDigits_head m
  have hplus : c ≠ '+' := digit_ne_plus c h48
  have hminus : c ≠ '-' := digit_ne_minus c h48
  have hpd : parseDigits (c :: cs) = some m := hcs ▸ parseDigits_natDigits m
  constructor
  · rw [hcs]
    simp only [parse_take_value, List.head?]
    rw [show List.dropWhile (fun x => decide (x = '+')) ('+' :: '+' :: c :: cs) = c :: cs from by
      simp [List.dropWhile_cons, hplus]]
    rw [parseI64_unsigned c cs m hplus hminus hpd hm]
    have hm0 : ¬((m : Int) = 0) := by omega
    simp [hm0]
  · rw [hcs]
    simp only [parse_take_value, List.head?]
    rw [show List.dropWhile (fun x => decide (x = '+')) ('+' :: '-' :: c :: cs) = '-' :: c :: cs from by
      simp [List.dropWhile_cons]]
    rw [parseI64_minus (c :: cs) m hpd (by unfold i64max at hm; omega)]
    have hm0 : ¬(-(m : Int) = 0) := by omega
    simp [hm0]

/-- Witness for `parse_extra_signs` at `m = 3`. -/
theorem parse_extra_signs_witness :
    parse_take_value ['+', '+', '3'] "byte" = Except.ok (TakeNum 3) ∧
    parse_take_value ['+', '-', '3'] "byte" = Except.ok (TakeNum (-3)) := by
  have h := parse_extra_signs 3 "byte" (by norm_num) (by unfold i64max; norm_num)
  rw [show natDigits 3 = ['3'] from by rw [natDigits]; decide] at h
  exact_mod_cast h

/-- C6 (amended): whenever the effective text — the input with all leading
`+` characters stripped when it begins with `+`, the input itself otherwise —
does not parse as an `i64`, the parser fails with exactly the message
`"illegal {field_name} count -- {text}"` built from the original text. -/
theorem parse_illegal (s : List Char) (f : String)
    (h : parseI64 (if s.head? = some '+'
        then s.dropWhile (fun c => decide (c = '+')) else s) = none) :
    parse_take_value s f
      = Except.error ("illegal " ++ f ++ " count -- " ++ s.asString) := by
  by_cases hp : s.head? = some '+'
  · rw [if_pos hp] at h
    have hm : ¬(s.head? = some '-') := by rw [hp]; simp
    simp only [parse_take_value]
    simp [hp, hm, h]
  · rw [if_neg hp] at h
    simp only [parse_take_value]
    simp [hp, h]

/-- Witness for `parse_illegal` at the text `"3.14"`. -/
theorem parse_illegal_witness :
    parse_take_value ['3', '.', '1', '4'] "byte"
      = Except.error ("illegal " ++ "byte" ++ " count -- "
          ++ (['3', '.', '1', '4'] : List Char).asString) :=
  parse_illegal ['3', '.', '1', '4'] "byte" (by decide)

/-- C6 (counterexample): the text `"++3"` does not parse as an `i64`, yet
`parse_take_value` accepts it (every leading `+` is stripped first), so the
parser does not fail on every text that is not an `i64`. -/
theorem parse_illegal_counterexample :
    parseI64 ['+', '+', '3'] = none ∧
    parse_take_value ['+', '+', '3'] "line" = Except.ok (TakeNum 3) := by
  constructor <;> decide

/-- The successive chunks returned by repeated `read_line` calls on a file:
every chunk ends with a newline, except possibly the final unterminated
one. The file is modelled as its character sequence, one `Char` per byte. -/
def splitLines : List Char → List (List Char)
  | [] => []
  | c :: cs =>
    if c = '\n' then ['\n'] :: splitLines cs
    else
      match splitLines cs with
      | [] => [[c]]
      | l :: ls => (c :: l) :: ls

/-- The accumulating loop of `count_lines_bytes`: for each line record read,
add its byte length to `bytes` and bump `lines`. -/
def count_lines_bytes_loop : List (List Char) → Int → Int → Int × Int
  | [], lines, bytes => (lines, bytes)
  | l :: ls, lines, bytes => count_lines_bytes_loop ls (lines + 1) (bytes + l.length)

/-- Shallow embedding of `count_lines_bytes` (src/src/lib.rs, lines 69-87):
one sequential pass over the file, counting line records and their
cumulative byte length. -/
def count_lines_bytes (content : List Char) : Int × Int :=
  count_lines_bytes_loop (splitLines content) 0 0

example : count_lines_bytes ('a' :: 'b' :: '\n' :: 'c' :: []) = (2, 4) := by decide
example : count_lines_bytes [] = (0, 0) := by decide

theorem splitLines_ne_nil (cs : List Char) : ∀ l ∈ splitLines cs, l ≠ [] := by
  induction cs with
  | nil => intro l hl; simp [splitLines] at hl
  | cons c cs ih =>
    intro l hl
    simp only [splitLines] at hl
    by_cases h : c = '\n'
    · rw [if_pos h] at hl
      rcases List.mem_cons.mp hl with h1 | h1
      · subst h1; simp
      · exact ih l h1
    · rw [if_neg h] at hl
      cases hsp : splitLines cs with
      | nil =>
        rw [hsp] at hl
        rcases List.mem_cons.mp hl with h1 | h1
        · subst h1; simp
        · simp at h1
      | cons t ts =>
        rw [hsp] at hl
        rcases List.mem_cons.mp hl with h1 | h1
        · subst h1; simp
        · exact ih l (hsp ▸ List.mem_cons_of_mem t h1)

theorem splitLines_length_le (cs : List Char) : (splitLines cs).length ≤ cs.length := by
  induction cs with
  | nil => simp [splitLines]
  | cons c cs ih =>
    simp only [splitLines]
    by_cases h : c = '\n'
    · rw [if_pos h]
      simpa using ih
    · rw [if_neg h]
      cases hsp : splitLines cs with
      | nil => simp
      | cons t ts =>
        rw [hsp] at ih
        simp only [List.length_cons] at ih ⊢
        omega

theorem splitLines_sum_length (cs : List Char) :
    ((splitLines cs).map List.length).sum = cs.length := by
  induction cs with
  | nil => simp [splitLines]
  | cons c cs ih =>
    simp only [splitLines]
    by_cases h : c = '\n'
    · rw [if_pos h]
      simp only [List.map_cons, List.sum_cons, List.length_cons, List.length_nil]
      omega
    · rw [if_neg h]
      cases hsp : splitLines cs with
      | nil =>
        rw [hsp] at ih
        simp only [List.map_nil, List.sum_nil] at ih
        have hcs : cs = [] := List.eq_nil_of_length_eq_zero ih.symm
        subst hcs
        simp
      | cons t ts =>
        rw [hsp] at ih
        simp only [List.map_cons, List.sum_cons, List.length_cons] at ih ⊢
        omega

theorem splitLines_eq_nil_iff (cs : List Char) : splitLines cs = [] ↔ cs = [] := by
  constructor
  · intro h
    cases cs with
    | nil => rfl
    | cons c cs =>
      simp only [splitLines] at h
      by_cases hc : c = '\n'
      · rw [if_pos hc] at h; simp at h
      · rw [if_neg hc] at h
        cases hsp : splitLines cs with
        | nil => rw [hsp] at h; simp at h
        | cons t ts => rw [hsp] at h; simp at h
  · intro h; subst h; rfl

theorem count_lines_bytes_loop_eq (ls : List (List Char)) (l b : Int) :
    count_lines_bytes_loop ls l b
      = (l + ls.length, b + ((ls.map List.length).sum : Nat)) := by
  induction ls generalizing l b with
  | nil => simp [count_lines_bytes_loop]
  | cons t ts ih =>
    simp only [count_lines_bytes_loop, ih, List.length_cons, List.map_cons, List.sum_cons]
    simp only [Prod.mk.injEq]
    constructor <;> (push_cast; ring)

/-- C10: the metrics scanner returns a pair `(total_lines, total_bytes)`
with `0 ≤ total_lines ≤ total_bytes`, and `total_lines = 0` exactly when
`total_bytes = 0`. -/
theorem count_lines_bytes_invariant (content : List Char) :
    0 ≤ (count_lines_bytes content).1 ∧
    (count_lines_bytes content).1 ≤ (count_lines_bytes content).2 ∧
    ((count_lines_bytes content).1 = 0 ↔ (count_lines_bytes content).2 = 0) := by
  have h1 : count_lines_bytes content
      = (((splitLines content).length : Int), (content.length : Int)) := by
    unfold count_lines_bytes
    rw [count_lines_bytes_loop_eq, splitLines_sum_length]
    simp
  rw [h1]
  dsimp only
  have hle : (splitLines content).length ≤ content.length := splitLines_length_le content
  have hnil : splitLines content = [] ↔ content = [] := splitLines_eq_nil_iff content
  refine ⟨by positivity, by exact_mod_cast hle, ?_⟩
  constructor
  · intro h
    have hs : splitLines content = [] := by
      apply List.eq_nil_of_length_eq_zero
      exact_mod_cast h
    have hc : content = [] := hnil.mp hs
    simp [hc]
  · intro h
    have hc : content = [] := by
      apply List.eq_nil_of_length_eq_zero
      exact_mod_cast h
    simp [hc, splitLines]

/-- The reading loop of `print_lines`: read each line in order, write it to
output exactly when at least `start` lines have already been consumed. -/
def print_lines_loop : List (List Char) → Nat → Int → List Char
  | [], _, _ => []
  | l :: ls, line_count, start =>
    (if start ≤ (line_count : Int) then l else []) ++ print_lines_loop ls (line_count + 1) start

/-- Shallow embedding of `print_lines` (src/src/lib.rs, lines 121-146):
resolve the offset, emit nothing on `none`, otherwise re-read the file from
the start, discarding lines before the offset and writing the rest. -/
def print_lines (content : List Char) (num_lines : TakeValue) (total_lines : Int) : List Char :=
  match get_start_index num_lines total_lines with
  | none => []
  | some start => print_lines_loop (splitLines content) 0 start

/-- Shallow embedding of `print_bytes` (src/src/lib.rs, lines 148-167):
resolve the offset, emit nothing on `none`, otherwise seek to the offset
and emit every remaining byte. -/
def print_bytes (content : List Char) (num_bytes : TakeValue) (total_bytes : Int) : List Char :=
  match get_start_index num_bytes total_bytes with
  | none => []
  | some start => content.drop start.toNat

theorem get_start_index_nonneg (tv : TakeValue) (total k : Int)
    (h : get_start_index tv total = some k) : 0 ≤ k := by
  cases tv with
  | PlusZero =>
    simp only [get_start_index] at h
    by_cases h0 : total = 0
    · rw [if_pos h0] at h; exact absurd h (by simp)
    · rw [if_neg h0] at h
      simp at h
      omega
  | TakeNum n =>
    simp only [get_start_index] at h
    by_cases h0 : n = 0
    · rw [if_pos h0] at h; exact absurd h (by simp)
    · rw [if_neg h0] at h
      by_cases h1 : 0 < n
      · rw [if_pos h1] at h
        by_cases h2 : total < n
        · rw [if_pos h2] at h; exact absurd h (by simp)
        · rw [if_neg h2] at h
          simp at h
          rw [← h]
          unfold toU64
          exact Int.emod_nonneg _ (by norm_num)
      · rw [if_neg h1] at h
        by_cases h2 : total < i64abs n
        · rw [if_pos h2] at h
          simp at h
          omega
        · rw [if_neg h2] at h
          simp at h
          rw [← h]
          unfold toU64
          exact Int.emod_nonneg _ (by norm_num)

theorem print_lines_loop_eq (ls : List (List Char)) (c : Nat) (k : Int) (hk : 0 ≤ k) :
    print_lines_loop ls c k = (ls.drop (k.toNat - c)).flatten := by
  induction ls generalizing c with
  | nil => simp [print_lines_loop]
  | cons l ls ih =>
    rw [print_lines_loop, ih (c + 1)]
    by_cases h : k ≤ (c : Int)
    · have h1 : k.toNat - c = 0 := by omega
      have h2 : k.toNat - (c + 1) = 0 := by omega
      rw [if_pos h, h1, h2]
      simp
    · have h1 : k.toNat - c = (k.toNat - (c + 1)) + 1 := by omega
      rw [if_neg h, h1, List.drop_succ_cons]
      simp

/-- C7: line-mode emission writes nothing when the resolver answers `none`;
otherwise it writes exactly the concatenation, in file order, of every line
record at or after the resolved offset, each verbatim with its terminator. -/
theorem print_lines_spec (content : List Char) (tv : TakeValue) (total : Int) :
    (get_start_index tv total = none → print_lines content tv total = []) ∧
    ∀ k, get_start_index tv total = some k →
      print_lines content tv total = ((splitLines content).drop k.toNat).flatten := by
  constructor
  · intro h
    unfold print_lines
    rw [h]
  · intro k hk
    unfold print_lines
    rw [hk]
    show print_lines_loop (splitLines content) 0 k
      = ((splitLines content).drop k.toNat).flatten
    rw [print_lines_loop_eq _ 0 k (get_start_index_nonneg tv total k hk)]
    simp

/-- Witness for `print_lines_spec` on the file `"a\nb\nc\n"` with
specification `TakeNum (-2)` (last two lines) and three total lines. -/
theorem print_lines_spec_witness :
    print_lines ['a', '\n', 'b', '\n', 'c', '\n'] (TakeNum (-2)) 3
      = ((splitLines ['a', '\n', 'b', '\n', 'c', '\n']).drop (1 : Int).toNat).flatten :=
  (print_lines_spec ['a', '\n', 'b', '\n', 'c', '\n'] (TakeNum (-2)) 3).2 1 (by decide)

/-- The per-file behavior of the loop body of `run` (src/src/lib.rs, lines
172-192). `fs` models the file system: for each filename, either the file's
content or the message of the open error. An open failure contributes only
the diagnostic `"{filename}: {error}"` on the error channel; an opened file
contributes its optional header followed by its emitted tail on standard
output. `i` is the file's position, `file_count` the total number of files. -/
def file_output (fs : String → Except String (List Char)) (file_count : Nat)
    (quiet : Bool) (bytes : Option TakeValue) (lines : TakeValue)
    (i : Nat) (filename : String) : List Char × List String :=
  match fs filename with
  | Except.error e => ([], [filename ++ ": " ++ e])
  | Except.ok content =>
    let header : List Char :=
      if 1 < file_count ∧ quiet = false then
        (if 0 < i then ['\n'] else []) ++ ("==> " ++ filename ++ " <==").data ++ ['\n']
      else []
    let totals := count_lines_bytes content
    let body : List Char :=
      match bytes with
      | some bv => print_bytes content bv totals.2
      | none => print_lines content lines totals.1
    (header ++ body, [])

/-- The loop of `run` over the enumerated filename list, concatenating each
file's standard output and error-channel diagnostics in input order. -/
def run_loop (fs : String → Except String (List Char)) (file_count : Nat)
    (quiet : Bool) (bytes : Option TakeValue) (lines : TakeValue) :
    List (Nat × String) → List Char × List String
  | [] => ([], [])
  | (i, filename) :: rest =>
    let p := file_output fs file_count quiet bytes lines i filename
    let r := run_loop fs file_count quiet bytes lines rest
    (p.1 ++ r.1, p.2 ++ r.2)

/-- Shallow embedding of `run` (src/src/lib.rs, lines 169-196). In this
model every read of an opened file succeeds, so the one `Err` source of the
Rust function (an I/O failure while reading an opened file) cannot occur. -/
def run (fs : String → Except String (List Char)) (files : List String)
    (bytes : Option TakeValue) (lines : TakeValue) (quiet : Bool) :
    Except String (List Char × List String) :=
  Except.ok (run_loop fs files.length quiet bytes lines files.enum)

theorem run_loop_append (fs : String → Except String (List Char)) (file_count : Nat)
    (quiet : Bool) (bytes : Option TakeValue) (lines : TakeValue)
    (a b : List (Nat × String)) :
    run_loop fs file_count quiet bytes lines (a ++ b)
      = ((run_loop fs file_count quiet bytes lines a).1
          ++ (run_loop fs file_count quiet bytes lines b).1,
         (run_loop fs file_count quiet bytes lines a).2
          ++ (run_loop fs file_count quiet bytes lines b).2) := by
  induction a with
  | nil => simp [run_loop]
  | cons p ps ih =>
    cases p with
    | mk i filename =>
      simp only [List.cons_append, run_loop, List.append_eq]
      rw [ih]
      simp [List.append_assoc]

/-- C8: when opening `fname` fails with error `e`, the run over
`pre ++ fname :: post` still succeeds as a whole, the error channel carries
the diagnostic `"{fname}: {e}"` between the diagnostics of `pre` and those
of `post`, and standard output is exactly the output of the `pre` files
followed by the output of the `post` files, each processed at its original
position — the failing file contributes nothing but its diagnostic. -/
theorem run_open_failure (fs : String → Except String (List Char))
    (pre post : List String) (fname e : String)
    (bytes : Option TakeValue) (lines : TakeValue) (quiet : Bool)
    (h : fs fname = Except.error e) :
    run fs (pre ++ fname :: post) bytes lines quiet = Except.ok
      ((run_loop fs (pre ++ fname :: post).length quiet bytes lines pre.enum).1
        ++ (run_loop fs (pre ++ fname :: post).length quiet bytes lines
              (List.enumFrom (pre.length + 1) post)).1,
       (run_loop fs (pre ++ fname :: post).length quiet bytes lines pre.enum).2
        ++ (fname ++ ": " ++ e)
          :: (run_loop fs (pre ++ fname :: post).length quiet bytes lines
                (List.enumFrom (pre.length + 1) post)).2) := by
  unfold run
  congr 1
  rw [List.enum_append, List.enumFrom_cons, run_loop_append]
  simp only [run_loop, file_output, h]
  simp [List.append_assoc]

/-- A two-entry file system for the `run_open_failure` witness: `"ok.txt"`
holds the two-byte file `"x\n"`, every other name fails to open. -/
def fsWitness : String → Except String (List Char) := fun filename =>
  if filename = "ok.txt" then Except.ok ['x', '\n']
  else Except.error "No such file or directory (os error 2)"

/-- Witness for `run_open_failure`: of three files the middle one is
missing; both other files are fully emitted with their headers and the run
succeeds with the single diagnostic. -/
theorem run_open_failure_witness :
    run fsWitness ["ok.txt", "missing.txt", "ok.txt"] none (TakeNum (-10)) false
      = Except.ok (("==> ok.txt <==\nx\n\n==> ok.txt <==\nx\n").data,
          ["missing.txt: No such file or directory (os error 2)"]) := by
  have hw := run_open_failure fsWitness ["ok.txt"] ["ok.txt"] "missing.txt"
    "No such file or directory (os error 2)" none (TakeNum (-10)) false (by decide)
  exact hw.trans (by decide)

end Tailr
